import Mathlib

/-!
Verification of the timer core of `src/timer.rs`: the embassy-time wake queue
(`InnerQueue` over a `heapless::sorted_linked_list::SortedLinkedList<Timer, _, Min, 128>`)
and the fixed-capacity alarm slot pool (`EspDriver<MAX_ALARMS>`), plus the
`EspTimer` one-shot handle.

Shallow embedding conventions:
* `embassy_time::Instant` and `u64` tick counts become `Nat`; `Instant::MAX.as_ticks()`
  is the sentinel `u64MAX = 2^64 - 1`.  No arithmetic in the modelled paths can
  overflow (`timestamp - now` is only taken when `now < timestamp`), so `Nat` is exact.
* A `core::task::Waker` is an opaque identity; `will_wake` compares identities.
  Invoking `wake` is recorded by appending the waker's identity to an event list:
  each operation returns the list of wakers woken during the call, in invocation order.
* The clock (`Instant::now()` / `esp_timer_get_time`) is external; each operation that
  reads the clock takes the observed value as an explicit `now` parameter.
* Panics (`unwrap` on a missing alarm, out-of-range slot index, pop from an empty
  full queue) are modelled by returning `none`.
* The `heapless` sorted linked list is external library code; it is modelled by its
  documented contract: a capacity-bounded list kept in ascending key order, where
  `push` fails exactly when the list already holds `cap` elements and inserts a new
  element before the first element whose key is not smaller, `pop`/`peek` act on the
  head (the minimum), and `find_mut ... finish` re-sorts an updated node by removing
  it and re-inserting its new value.
-/

namespace EspIdfSvcTimer

/-- `u64::MAX`, the tick count of `embassy_time::Instant::MAX` — the sentinel
"never" deadline used to disarm the shared hardware alarm. -/
def u64MAX : Nat := 18446744073709551615

/-! ## Wake queue data model (`mod generic_queue` in `src/timer.rs`) -/

/-- The queue entry `struct Timer { at: Instant, waker: Waker }`.
The source field `at` is a Lean keyword, so it is named `deadline` here;
`waker` is the opaque waker identity. `Ord for Timer` compares only `at`. -/
structure Timer where
  deadline : Nat
  waker : Nat
deriving DecidableEq

/-- The ordering `Ord for Timer` (compares only the `at` field); the queue is kept
`Min`-sorted, i.e. ascending in this relation. -/
def leT (a b : Timer) : Prop := a.deadline ≤ b.deadline

instance : DecidableRel leT := fun a b => inferInstanceAs (Decidable (a.deadline ≤ b.deadline))

/-- Model of `heapless::sorted_linked_list` insertion for the `Min` kind:
the new element is inserted before the first element whose key is not strictly
smaller (so before existing elements with an equal key). -/
def insertSorted (t : Timer) : List Timer → List Timer
  | [] => [t]
  | h :: rest => if h.deadline < t.deadline then h :: insertSorted t rest else t :: h :: rest

/-- Model of `SortedLinkedList::push` for a list of capacity `cap`: fails (returning
`none`, the source's `Err(value)`) exactly when the list already holds `cap`
elements, otherwise inserts in sorted order. The source instantiates `cap = 128`. -/
def push (cap : Nat) (t : Timer) (q : List Timer) : Option (List Timer) :=
  if q.length < cap then some (insertSorted t q) else none

/-- The capacity the source bakes into the queue type:
`SortedLinkedList<Timer, LinkedIndexU8, Min, 128>`. -/
def queueCapacity : Nat := 128

/-- The overflow loop inside `InnerQueue::schedule_wake`:
`loop { match push(timer) { Ok => break, Err(e) => timer = e }; pop().unwrap().waker.wake(); }`.
Returns the queue after insertion together with the wakers woken by eviction, in
invocation order; `none` models the `unwrap` panic on popping an empty queue
(unreachable for `cap > 0`). -/
def pushEvict (cap : Nat) (t : Timer) : List Timer → Option (List Timer × List Nat)
  | [] =>
    match push cap t [] with
    | some q' => some (q', [])
    | none => none
  | h :: rest =>
    match push cap t (h :: rest) with
    | some q' => some (q', [])
    | none => (pushEvict cap t rest).map fun r => (r.1, h.waker :: r.2)

/-- The sweep loop inside `InnerQueue::dispatch`:
`while peek().filter(|timer| timer.at <= now).is_some() { pop().unwrap().waker.wake(); }`.
Returns the remaining queue and the woken wakers in invocation order. -/
def sweep (now : Nat) : List Timer → List Timer × List Nat
  | [] => ([], [])
  | t :: rest =>
    if t.deadline ≤ now then
      let r := sweep now rest
      (r.1, t.waker :: r.2)
    else
      (t :: rest, [])

/-- Model of `find_mut(|timer| timer.waker.will_wake(waker))` followed by
`finish()`: locate the first entry with the given waker identity and detach it,
returning it together with the remaining list (the re-insertion is done by the
caller, as `FindMut::drop` does). -/
def findRemove (w : Nat) : List Timer → Option (Timer × List Timer)
  | [] => none
  | t :: rest =>
    if t.waker = w then some (t, rest)
    else (findRemove w rest).map fun r => (r.1, t :: r.2)

/-- State of the single hardware alarm bound by the queue (`AlarmImpl`): `armed`
records the timestamp passed to the last `schedule` call when that call armed the
timer (`AlarmImpl::schedule` stops the timer and re-arms it one-shot only when
`timestamp < u64::MAX`). -/
structure HwAlarm where
  armed : Option Nat
deriving DecidableEq

/-- `AlarmImpl::schedule(timestamp)`: `esp_timer_stop`, then
`esp_timer_start_once` unless the timestamp is the `u64::MAX` sentinel. -/
def HwAlarm.schedule (timestamp : Nat) (_a : HwAlarm) : HwAlarm :=
  if timestamp < u64MAX then ⟨some timestamp⟩ else ⟨none⟩

/-- `struct InnerQueue { queue, alarm: Option<A>, alarm_context, alarm_at }`.
The `alarm_context` routing pair (function pointer + queue pointer) carries no
queue semantics and is omitted. -/
structure InnerQueue where
  queue : List Timer
  alarm : Option HwAlarm
  alarm_at : Nat
deriving DecidableEq

/-- `InnerQueue::new()`. -/
def InnerQueue.new : InnerQueue := ⟨[], none, u64MAX⟩

/-- `InnerQueue::initialize`: lazily bind the single hardware alarm on first use
(`A::new` creates the esp timer, not yet armed). Renamed because `initialize` is
a Lean keyword. -/
def InnerQueue.initAlarm (s : InnerQueue) : InnerQueue :=
  match s.alarm with
  | none => { s with alarm := some ⟨none⟩ }
  | some _ => s

/-- `InnerQueue::update_alarm`: if the queue is nonempty and the head deadline
differs from `alarm_at`, record it and reprogram the hardware alarm; if the queue
is empty, record the sentinel and schedule `Instant::MAX` (which disarms).
`none` models the `unwrap` panic when no alarm is bound. -/
def InnerQueue.update_alarm (s : InnerQueue) : Option InnerQueue :=
  match s.queue with
  | timer :: _ =>
    if s.alarm_at ≠ timer.deadline then
      match s.alarm with
      | some hw =>
        some { s with alarm_at := timer.deadline, alarm := some (hw.schedule timer.deadline) }
      | none => none
    else
      some s
  | [] =>
    match s.alarm with
    | some hw => some { s with alarm_at := u64MAX, alarm := some (hw.schedule u64MAX) }
    | none => none

/-- `InnerQueue::dispatch`: read the clock once (`now`), pop-and-wake every due
entry from the head, then `update_alarm`. -/
def InnerQueue.dispatch (now : Nat) (s : InnerQueue) : Option (InnerQueue × List Nat) :=
  let r := sweep now s.queue
  (InnerQueue.update_alarm { s with queue := r.1 }).map fun s' => (s', r.2)

/-- `InnerQueue::handle_alarm`: mark the armed deadline expired, then `dispatch`. -/
def InnerQueue.handle_alarm (now : Nat) (s : InnerQueue) : Option (InnerQueue × List Nat) :=
  InnerQueue.dispatch now { s with alarm_at := u64MAX }

/-- `InnerQueue::schedule_wake(at, waker)`: lazily bind the alarm, then either
update the existing entry for this waker in place (re-sorting it), or push a new
entry, evicting-and-waking the earliest entries while the queue is full; finally
run `dispatch` with the clock value `now` it reads. -/
def InnerQueue.schedule_wake (cap now dl w : Nat) (s : InnerQueue) :
    Option (InnerQueue × List Nat) :=
  let s1 := s.initAlarm
  match findRemove w s1.queue with
  | some r =>
    InnerQueue.dispatch now { s1 with queue := insertSorted { r.1 with deadline := dl } r.2 }
  | none =>
    match pushEvict cap { deadline := dl, waker := w } s1.queue with
    | none => none
    | some (q', ws) =>
      (InnerQueue.dispatch now { s1 with queue := q' }).map fun r2 => (r2.1, ws ++ r2.2)

/-! ## EspTimer handle and the alarm slot pool (`EspDriver`) -/

/-- State of one `EspTimer` (an `esp_timer` one-shot handle): `armed` holds the
duration in microseconds passed to the last `esp_timer_start_once` if the timer
is currently running one-shot. -/
structure TimerState where
  armed : Option Nat
deriving DecidableEq

/-- `ESP_OK` of ESP-IDF. -/
def ESP_OK : Int := 0

/-- `ESP_ERR_INVALID_STATE` (0x103), returned by `esp_timer_stop` when the timer
is not running. -/
def ESP_ERR_INVALID_STATE : Int := 259

/-- Modelled from the spec: the consumed hardware-alarm primitive
`disarm(handle) -> previously_active` (`esp_timer_stop`, external ESP-IDF code,
not under `src/`): it stops the timer, reporting `ESP_OK` exactly when the timer
was running, and `ESP_ERR_INVALID_STATE` when it was not. -/
def esp_timer_stop (st : TimerState) : Int × TimerState :=
  (if st.armed.isSome then ESP_OK else ESP_ERR_INVALID_STATE, ⟨none⟩)

/-- Modelled from the spec: the consumed primitive `arm_once(handle, duration)`
(`esp_timer_start_once`, external ESP-IDF code): arms the one-shot timer for the
given duration. The code only calls it on a just-stopped timer, where it
succeeds. -/
def esp_timer_start_once (dur : Nat) (_st : TimerState) : Int × TimerState :=
  (ESP_OK, ⟨some dur⟩)

/-- `EspTimer::cancel`: `let res = esp_timer_stop(handle); Ok(res != ESP_OK)`. -/
def EspTimer.cancel (st : TimerState) : Bool × TimerState :=
  let r := esp_timer_stop st
  (decide (r.1 ≠ ESP_OK), r.2)

/-- `EspTimer::after(duration)`: `cancel` then `esp_timer_start_once` for
`duration.as_micros()` microseconds. -/
def EspTimer.after (dur : Nat) (st : TimerState) : TimerState :=
  let st1 := (EspTimer.cancel st).2
  (esp_timer_start_once dur st1).2

/-- `struct Alarm { timer: Option<EspTimer>, callback: Option<(fn(*mut ()), *mut ())> }`;
the callback pair is modelled as two opaque numbers. -/
structure Alarm where
  timer : Option TimerState
  callback : Option (Nat × Nat)
deriving DecidableEq

/-- `struct EspDriver<MAX_ALARMS> { alarms: UnsafeCell<Vec<Alarm, MAX_ALARMS>>, cs }`;
the critical section serialises access and is omitted in this sequential model. -/
structure EspDriver where
  alarms : List Alarm
deriving DecidableEq

/-- `EspDriver::new()`. -/
def EspDriver.new : EspDriver := ⟨[]⟩

/-- In-place update of the slot at index `i` (the source's
`self.alarm(id)` mutable indexing). Out-of-range indices leave the list
unchanged; the driver only uses in-range ids. -/
def modifyAt (i : Nat) (f : Alarm → Alarm) : List Alarm → List Alarm
  | [] => []
  | a :: rest =>
    match i with
    | 0 => f a :: rest
    | i' + 1 => a :: modifyAt i' f rest

/-- `EspDriver::allocate_alarm`: with `id = alarms.len()`, if `id < MAX_ALARMS`
push a fresh slot, bind a new `EspTimer` to it, and return `id`; otherwise
return `None` without touching anything. -/
def EspDriver.allocate_alarm (maxAlarms : Nat) (d : EspDriver) : Option (Nat × EspDriver) :=
  let id := d.alarms.length
  if id < maxAlarms then
    let alarms1 := d.alarms ++ [⟨none, none⟩]
    let alarms2 := modifyAt id (fun a => { a with timer := some ⟨none⟩ }) alarms1
    some (id, ⟨alarms2⟩)
  else
    none

/-- `EspDriver::set_alarm_callback`. -/
def EspDriver.set_alarm_callback (id f ctx : Nat) (d : EspDriver) : EspDriver :=
  ⟨modifyAt id (fun a => { a with callback := some (f, ctx) }) d.alarms⟩

/-- `EspDriver::set_alarm(handle, timestamp)`: index the slot (panic — `none` —
if out of range), read the clock (`now`); if `now < timestamp`, re-arm the
slot's timer for `timestamp - now` microseconds (panic if no timer is bound)
and return `true`; otherwise return `false` and change nothing. -/
def EspDriver.set_alarm (now id timestamp : Nat) (d : EspDriver) : Option (Bool × EspDriver) :=
  match d.alarms[id]? with
  | none => none
  | some a =>
    if now < timestamp then
      match a.timer with
      | none => none
      | some tst =>
        some (true,
          ⟨modifyAt id (fun al => { al with timer := some (EspTimer.after (timestamp - now) tst) })
            d.alarms⟩)
    else
      some (false, d)

/-- A sequence of `n` successive `allocate_alarm` calls, recording each call's
result (`some id` or the exhaustion signal `none`) in call order. -/
def allocCalls (maxAlarms : Nat) : Nat → EspDriver → EspDriver × List (Option Nat)
  | 0, d => (d, [])
  | n + 1, d =>
    match EspDriver.allocate_alarm maxAlarms d with
    | some (id, d') =>
      let r := allocCalls maxAlarms n d'
      (r.1, some id :: r.2)
    | none =>
      let r := allocCalls maxAlarms n d
      (r.1, none :: r.2)

/-! ## Derived notions used by the statements -/

/-- Number of entries for a given waker identity. -/
def countW (w : Nat) (q : List Timer) : Nat := q.countP fun t => t.waker == w

/-- Minimum deadline of the queued entries, `u64MAX` (the `Instant::MAX`
sentinel) for an empty queue. -/
def minDeadline : List Timer → Nat
  | [] => u64MAX
  | [t] => t.deadline
  | t :: rest => Nat.min t.deadline (minDeadline rest)

/-- The armed-minimum invariant: the recorded armed deadline equals the minimum
deadline among queued entries (the sentinel for an empty queue), and with an
empty queue the bound hardware alarm is disarmed. -/
def armedMinInv (s : InnerQueue) : Prop :=
  s.alarm_at = minDeadline s.queue ∧ (s.queue = [] → s.alarm = some ⟨none⟩)

/-! ## Helper lemmas: sorted insertion -/

theorem insertSorted_perm (t : Timer) (q : List Timer) :
    List.Perm (insertSorted t q) (t :: q) := by
  induction q with
  | nil => simp [insertSorted]
  | cons h rest ih =>
    by_cases hc : h.deadline < t.deadline
    · simp only [insertSorted, if_pos hc]
      exact List.Perm.trans (ih.cons h) (List.Perm.swap t h rest)
    · simp only [insertSorted, if_neg hc]
      exact List.Perm.refl _

theorem length_insertSorted (t : Timer) (q : List Timer) :
    (insertSorted t q).length = q.length + 1 := by
  simpa using (insertSorted_perm t q).length_eq

theorem mem_insertSorted {a t : Timer} {q : List Timer} :
    a ∈ insertSorted t q ↔ a = t ∨ a ∈ q := by
  rw [(insertSorted_perm t q).mem_iff]
  simp

theorem sorted_insertSorted (t : Timer) {q : List Timer} (hq : q.Pairwise leT) :
    (insertSorted t q).Pairwise leT := by
  induction q with
  | nil => simp [insertSorted, List.pairwise_cons]
  | cons h rest ih =>
    rw [List.pairwise_cons] at hq
    by_cases hc : h.deadline < t.deadline
    · simp only [insertSorted, if_pos hc]
      rw [List.pairwise_cons]
      refine ⟨?_, ih hq.2⟩
      intro a ha
      rcases mem_insertSorted.mp ha with rfl | ha'
      · exact Nat.le_of_lt hc
      · exact hq.1 a ha'
    · simp only [insertSorted, if_neg hc]
      rw [List.pairwise_cons]
      refine ⟨?_, List.pairwise_cons.mpr hq⟩
      intro a ha
      rcases List.mem_cons.mp ha with rfl | ha'
      · exact Nat.le_of_not_lt hc
      · exact Nat.le_trans (Nat.le_of_not_lt hc) (hq.1 a ha')

/-! ## Helper lemmas: minimum deadline and waker counting -/

theorem minDeadline_sorted {hd : Timer} {tl : List Timer}
    (hs : (hd :: tl).Pairwise leT) : minDeadline (hd :: tl) = hd.deadline := by
  induction tl generalizing hd with
  | nil => rfl
  | cons u rest ih =>
    rw [List.pairwise_cons] at hs
    have h1 : minDeadline (u :: rest) = u.deadline := ih hs.2
    show Nat.min hd.deadline (minDeadline (u :: rest)) = hd.deadline
    rw [h1]
    exact Nat.min_eq_left (hs.1 u (by simp))

theorem countW_le_of_sublist {w : Nat} {l1 l2 : List Timer}
    (h : List.Sublist l1 l2) : countW w l1 ≤ countW w l2 :=
  h.countP_le _

theorem countW_eq_of_perm {w : Nat} {l1 l2 : List Timer}
    (h : List.Perm l1 l2) : countW w l1 = countW w l2 :=
  h.countP_eq _

theorem countW_cons (w : Nat) (t : Timer) (l : List Timer) :
    countW w (t :: l) = countW w l + if t.waker = w then 1 else 0 := by
  simp [countW, List.countP_cons]

theorem countW_eq_zero {w : Nat} {l : List Timer} :
    countW w l = 0 ↔ ∀ t ∈ l, t.waker ≠ w := by
  simp [countW, List.countP_eq_zero]

theorem countW_pos {w : Nat} {l : List Timer} :
    0 < countW w l ↔ ∃ t ∈ l, t.waker = w := by
  simp [countW, List.countP_pos_iff]

/-! ## Helper lemmas: the sweep loop -/

theorem sweep_fst_sublist (now : Nat) (q : List Timer) :
    List.Sublist (sweep now q).1 q := by
  induction q with
  | nil => simp [sweep]
  | cons t rest ih =>
    by_cases hc : t.deadline ≤ now
    · simp only [sweep, if_pos hc]
      exact List.Sublist.cons t ih
    · simp only [sweep, if_neg hc]
      exact List.Sublist.refl _

theorem mem_sweep_fst {t : Timer} {now : Nat} {q : List Timer}
    (ht : t ∈ q) (hgt : now < t.deadline) : t ∈ (sweep now q).1 := by
  induction q with
  | nil => cases ht
  | cons h rest ih =>
    by_cases hc : h.deadline ≤ now
    · simp only [sweep, if_pos hc]
      rcases List.mem_cons.mp ht with rfl | h'
      · exact absurd hc (Nat.not_le_of_lt hgt)
      · exact ih h'
    · simp only [sweep, if_neg hc]
      exact ht

theorem sweep_fst_forall {now : Nat} {q : List Timer} (hs : q.Pairwise leT) :
    ∀ t ∈ (sweep now q).1, now < t.deadline := by
  induction q with
  | nil => intro t ht; simp [sweep] at ht
  | cons h rest ih =>
    rw [List.pairwise_cons] at hs
    by_cases hc : h.deadline ≤ now
    · simp only [sweep, if_pos hc]
      exact ih hs.2
    · simp only [sweep, if_neg hc]
      intro t ht
      rcases List.mem_cons.mp ht with rfl | h'
      · exact Nat.lt_of_not_le hc
      · exact Nat.lt_of_lt_of_le (Nat.lt_of_not_le hc) (hs.1 t h')

theorem sweep_snd_mem {now : Nat} {q : List Timer} (hs : q.Pairwise leT)
    {t : Timer} (ht : t ∈ q) (hle : t.deadline ≤ now) :
    t.waker ∈ (sweep now q).2 := by
  induction q with
  | nil => cases ht
  | cons h rest ih =>
    rw [List.pairwise_cons] at hs
    by_cases hc : h.deadline ≤ now
    · simp only [sweep, if_pos hc]
      rcases List.mem_cons.mp ht with rfl | h'
      · exact List.mem_cons_self _ _
      · exact List.mem_cons_of_mem _ (ih hs.2 h')
    · rcases List.mem_cons.mp ht with rfl | h'
      · exact absurd hle hc
      · exact absurd (Nat.le_trans (hs.1 t h') hle) hc

/-! ## Helper lemmas: find-and-detach -/

theorem findRemove_spec {w : Nat} {q : List Timer} :
    ∀ {t0 : Timer} {rest : List Timer}, findRemove w q = some (t0, rest) →
      t0.waker = w ∧ List.Perm q (t0 :: rest) ∧ List.Sublist rest q := by
  induction q with
  | nil => intro t0 rest h; simp [findRemove] at h
  | cons t q' ih =>
    intro t0 rest h
    by_cases hc : t.waker = w
    · simp only [findRemove, if_pos hc, Option.some.injEq, Prod.mk.injEq] at h
      obtain ⟨rfl, rfl⟩ := h
      exact ⟨hc, List.Perm.refl _, List.sublist_cons_self t q'⟩
    · simp only [findRemove, if_neg hc, Option.map_eq_some'] at h
      obtain ⟨⟨t1, r1⟩, h1, h2⟩ := h
      simp only [Prod.mk.injEq] at h2
      obtain ⟨rfl, rfl⟩ := h2
      obtain ⟨hw, hperm, hsub⟩ := ih h1
      exact ⟨hw, List.Perm.trans (hperm.cons t) (List.Perm.swap _ t r1),
        List.Sublist.cons₂ t hsub⟩

theorem findRemove_none {w : Nat} {q : List Timer} (h : findRemove w q = none) :
    ∀ t ∈ q, t.waker ≠ w := by
  induction q with
  | nil => intro t ht; cases ht
  | cons t q' ih =>
    by_cases hc : t.waker = w
    · simp [findRemove, hc] at h
    · simp only [findRemove, if_neg hc, Option.map_eq_none'] at h
      intro u hu
      rcases List.mem_cons.mp hu with rfl | hu'
      · exact hc
      · exact ih h u hu'

theorem findRemove_eq_none {w : Nat} {q : List Timer} (h : ∀ t ∈ q, t.waker ≠ w) :
    findRemove w q = none := by
  induction q with
  | nil => rfl
  | cons t q' ih =>
    have ht := h t (by simp)
    simp only [findRemove, if_neg ht, Option.map_eq_none']
    exact ih fun u hu => h u (by simp [hu])

/-! ## Helper lemmas: the eviction loop -/

theorem pushEvict_nil (cap : Nat) (t : Timer) :
    pushEvict cap t [] = if 0 < cap then some ([t], []) else none := by
  by_cases hc : 0 < cap <;> simp [pushEvict, push, insertSorted, hc]

theorem pushEvict_cons (cap : Nat) (t hd : Timer) (tl : List Timer) :
    pushEvict cap t (hd :: tl) =
      if (hd :: tl).length < cap then some (insertSorted t (hd :: tl), [])
      else (pushEvict cap t tl).map fun r => (r.1, hd.waker :: r.2) := by
  by_cases hc : (hd :: tl).length < cap
  · have hc' : tl.length + 1 < cap := by simpa using hc
    simp [pushEvict, push, hc, hc']
  · have hc' : ¬ tl.length + 1 < cap := by simpa using hc
    simp [pushEvict, push, hc, hc']

theorem pushEvict_lt {cap : Nat} {t : Timer} {q : List Timer} (h : q.length < cap) :
    pushEvict cap t q = some (insertSorted t q, []) := by
  cases q with
  | nil =>
    rw [pushEvict_nil, if_pos (by simpa using h)]
    rfl
  | cons hd tl => rw [pushEvict_cons, if_pos h]

theorem pushEvict_full {cap : Nat} {t hd : Timer} {tl : List Timer}
    (h : (hd :: tl).length = cap) :
    pushEvict cap t (hd :: tl) = some (insertSorted t tl, [hd.waker]) := by
  have h1 : ¬ (hd :: tl).length < cap := by omega
  have h2 : tl.length < cap := by simp at h ⊢; omega
  rw [pushEvict_cons, if_neg h1, pushEvict_lt h2]
  rfl

theorem pushEvict_spec {cap : Nat} {t : Timer} {q : List Timer} :
    ∀ {q' : List Timer} {ws : List Nat}, pushEvict cap t q = some (q', ws) →
      ∃ k, q' = insertSorted t (q.drop k) ∧ ws = (q.take k).map Timer.waker := by
  induction q with
  | nil =>
    intro q' ws h
    rw [pushEvict_nil] at h
    by_cases hc : 0 < cap
    · rw [if_pos hc] at h
      simp only [Option.some.injEq, Prod.mk.injEq] at h
      obtain ⟨rfl, rfl⟩ := h
      exact ⟨0, rfl, rfl⟩
    · rw [if_neg hc] at h
      cases h
  | cons hd tl ih =>
    intro q' ws h
    rw [pushEvict_cons] at h
    by_cases hc : (hd :: tl).length < cap
    · rw [if_pos hc] at h
      simp only [Option.some.injEq, Prod.mk.injEq] at h
      obtain ⟨rfl, rfl⟩ := h
      exact ⟨0, rfl, rfl⟩
    · rw [if_neg hc, Option.map_eq_some'] at h
      obtain ⟨⟨q1, ws1⟩, h1, h2⟩ := h
      simp only [Prod.mk.injEq] at h2
      obtain ⟨rfl, rfl⟩ := h2
      obtain ⟨k, hk1, hk2⟩ := ih h1
      exact ⟨k + 1, by simpa using hk1, by simp [hk2]⟩

/-! ## Plumbing lemmas for the queue operations -/

theorem initAlarm_queue (s : InnerQueue) : s.initAlarm.queue = s.queue := by
  cases h : s.alarm <;> simp [InnerQueue.initAlarm, h]

theorem initAlarm_isSome (s : InnerQueue) : s.initAlarm.alarm.isSome := by
  cases h : s.alarm <;> simp [InnerQueue.initAlarm, h]

theorem minDeadline_nil : minDeadline [] = u64MAX := rfl

theorem update_alarm_spec {s : InnerQueue} (hs : s.queue.Pairwise leT)
    (ha : s.alarm.isSome) :
    ∃ s', InnerQueue.update_alarm s = some s' ∧ s'.queue = s.queue ∧
      s'.alarm.isSome ∧ armedMinInv s' := by
  obtain ⟨hw, hhw⟩ := Option.isSome_iff_exists.mp ha
  cases hq : s.queue with
  | nil =>
    refine ⟨{ s with alarm_at := u64MAX, alarm := some (hw.schedule u64MAX) },
      ?_, hq, rfl, ?_⟩
    · simp [InnerQueue.update_alarm, hq, hhw]
    · simp [armedMinInv, hq, minDeadline_nil, HwAlarm.schedule]
  | cons hd tl =>
    have hmin : minDeadline (hd :: tl) = hd.deadline := minDeadline_sorted (hq ▸ hs)
    by_cases hne : s.alarm_at ≠ hd.deadline
    · refine ⟨{ s with alarm_at := hd.deadline, alarm := some (hw.schedule hd.deadline) },
        ?_, hq, rfl, ?_⟩
      · simp [InnerQueue.update_alarm, hq, hhw, hne]
      · simp [armedMinInv, hq, hmin]
    · push_neg at hne
      refine ⟨s, ?_, hq, ha, ?_⟩
      · simp [InnerQueue.update_alarm, hq, hne]
      · simp [armedMinInv, hq, hmin, hne]

theorem dispatch_spec {now : Nat} {s : InnerQueue} (hs : s.queue.Pairwise leT)
    (ha : s.alarm.isSome) :
    ∃ s', InnerQueue.dispatch now s = some (s', (sweep now s.queue).2) ∧
      s'.queue = (sweep now s.queue).1 ∧ s'.alarm.isSome ∧
      s'.queue.Pairwise leT ∧ armedMinInv s' ∧
      (∀ t ∈ s'.queue, now < t.deadline) := by
  have hsub := sweep_fst_sublist now s.queue
  have hsorted : (sweep now s.queue).1.Pairwise leT := hs.sublist hsub
  obtain ⟨s', h1, h2, h3, h4⟩ :=
    update_alarm_spec (s := { s with queue := (sweep now s.queue).1 }) hsorted ha
  refine ⟨s', ?_, h2, h3, ?_, h4, ?_⟩
  · simp [InnerQueue.dispatch, h1]
  · rw [h2]
    exact hsorted
  · rw [h2]
    exact sweep_fst_forall hs

theorem dispatch_inv {now : Nat} {s s' : InnerQueue} {ws : List Nat}
    (hs : s.queue.Pairwise leT) (ha : s.alarm.isSome)
    (h : InnerQueue.dispatch now s = some (s', ws)) : armedMinInv s' := by
  obtain ⟨s'', h1, _, _, _, h5, _⟩ := @dispatch_spec now _ hs ha
  rw [h1] at h
  simp only [Option.some.injEq, Prod.mk.injEq] at h
  obtain ⟨rfl, -⟩ := h
  exact h5

theorem schedule_wake_find {cap now dl w : Nat} {s : InnerQueue} {t0 : Timer}
    {rest : List Timer} (h : findRemove w s.queue = some (t0, rest)) :
    InnerQueue.schedule_wake cap now dl w s =
      InnerQueue.dispatch now
        { s.initAlarm with queue := insertSorted { t0 with deadline := dl } rest } := by
  have hq : findRemove w s.initAlarm.queue = some (t0, rest) := by
    rw [initAlarm_queue]
    exact h
  simp [InnerQueue.schedule_wake, hq]

theorem schedule_wake_push {cap now dl w : Nat} {s : InnerQueue} {q' : List Timer}
    {ws : List Nat} (hf : findRemove w s.queue = none)
    (hp : pushEvict cap { deadline := dl, waker := w } s.queue = some (q', ws)) :
    InnerQueue.schedule_wake cap now dl w s =
      (InnerQueue.dispatch now { s.initAlarm with queue := q' }).map
        fun r2 => (r2.1, ws ++ r2.2) := by
  have hq : findRemove w s.initAlarm.queue = none := by
    rw [initAlarm_queue]
    exact hf
  have hq2 : pushEvict cap { deadline := dl, waker := w } s.initAlarm.queue = some (q', ws) := by
    rw [initAlarm_queue]
    exact hp
  simp [InnerQueue.schedule_wake, hq, hq2]

theorem schedule_wake_push_none {cap now dl w : Nat} {s : InnerQueue}
    (hf : findRemove w s.queue = none)
    (hp : pushEvict cap { deadline := dl, waker := w } s.queue = none) :
    InnerQueue.schedule_wake cap now dl w s = none := by
  have hq : findRemove w s.initAlarm.queue = none := by
    rw [initAlarm_queue]
    exact hf
  have hq2 : pushEvict cap { deadline := dl, waker := w } s.initAlarm.queue = none := by
    rw [initAlarm_queue]
    exact hp
  simp [InnerQueue.schedule_wake, hq, hq2]

/-- Common analysis of `schedule_wake`: whatever the insertion phase did, the
call dispatches on `insertSorted ⟨dl, w⟩ base` for some `base` holding no entry
for `w`, with `ws0` the wakers already woken by eviction. -/
theorem schedule_wake_core {cap now dl w : Nat} {s : InnerQueue} {base : List Timer}
    {ws0 : List Nat}
    (hbs : base.Pairwise leT) (hb0 : countW w base = 0)
    (hblen : base.length + 1 ≤ cap)
    (heq : InnerQueue.schedule_wake cap now dl w s =
      (InnerQueue.dispatch now
        { s.initAlarm with queue := insertSorted { deadline := dl, waker := w } base }).map
        fun r2 => (r2.1, ws0 ++ r2.2)) :
    ∃ s' ws',
      InnerQueue.schedule_wake cap now dl w s = some (s', ws0 ++ ws') ∧
      s'.queue = (sweep now (insertSorted { deadline := dl, waker := w } base)).1 ∧
      ws' = (sweep now (insertSorted { deadline := dl, waker := w } base)).2 ∧
      s'.queue.Pairwise leT ∧ s'.alarm.isSome ∧ armedMinInv s' ∧
      s'.queue.length ≤ cap ∧
      (∀ t ∈ s'.queue, now < t.deadline) ∧
      (now < dl →
        ({ deadline := dl, waker := w } : Timer) ∈ s'.queue ∧
        countW w s'.queue = 1 ∧
        ∀ t ∈ s'.queue, t.waker = w → t = { deadline := dl, waker := w }) ∧
      (dl ≤ now → w ∈ ws0 ++ ws' ∧ ∀ t ∈ s'.queue, t.waker ≠ w) ∧
      (∀ t ∈ base, t.waker ≠ w → now < t.deadline → t ∈ s'.queue) := by
  set nt : Timer := { deadline := dl, waker := w } with hnt
  set qMid := insertSorted nt base with hqMid
  have hmid_sorted : qMid.Pairwise leT := sorted_insertSorted nt hbs
  obtain ⟨s', hd1, hd2, hd3, hd4, hd5, hd6⟩ :=
    @dispatch_spec now { s.initAlarm with queue := qMid }
      hmid_sorted (initAlarm_isSome s)
  have hmidq : ({ s.initAlarm with queue := qMid } : InnerQueue).queue = qMid := rfl
  rw [hmidq] at hd1 hd2
  have hsub2 : List.Sublist s'.queue qMid := by
    rw [hd2]
    exact sweep_fst_sublist now qMid
  have hmid_len : qMid.length = base.length + 1 := length_insertSorted nt base
  have hmid_cnt : countW w qMid = 1 := by
    rw [hqMid, countW_eq_of_perm (insertSorted_perm nt base), countW_cons, hb0]
    simp [hnt]
  have hntmem : nt ∈ qMid := mem_insertSorted.mpr (Or.inl rfl)
  have huniq : ∀ t ∈ s'.queue, t.waker = w → t = nt := by
    intro t ht hwk
    rcases mem_insertSorted.mp (hsub2.subset ht) with h | h
    · exact h
    · exact absurd hwk (countW_eq_zero.mp hb0 t h)
  refine ⟨s', (sweep now qMid).2, ?_, hd2, rfl, hd4, hd3, hd5, ?_, hd6, ?_, ?_, ?_⟩
  · rw [heq, hd1]
    rfl
  · calc s'.queue.length ≤ qMid.length := hsub2.length_le
    _ = base.length + 1 := hmid_len
    _ ≤ cap := hblen
  · intro hfut
    have hmem : nt ∈ s'.queue := by
      rw [hd2]
      exact mem_sweep_fst hntmem hfut
    refine ⟨hmem, ?_, huniq⟩
    have hle : countW w s'.queue ≤ 1 := hmid_cnt ▸ countW_le_of_sublist hsub2
    have hpos : 0 < countW w s'.queue := countW_pos.mpr ⟨nt, hmem, rfl⟩
    omega
  · intro hpast
    constructor
    · exact List.mem_append.mpr (Or.inr (sweep_snd_mem hmid_sorted hntmem hpast))
    · intro t ht hwk
      have hgt := hd6 t ht
      rw [huniq t ht hwk] at hgt
      exact absurd hpast (Nat.not_le_of_lt hgt)
  · intro t ht hwk hfut2
    have hm : t ∈ qMid := mem_insertSorted.mpr (Or.inr ht)
    rw [hd2]
    exact mem_sweep_fst hm hfut2

/-- Full functional specification of `schedule_wake` from a well-formed state:
the call succeeds, preserves sortedness, capacity and the armed-minimum
invariant, sweeps everything due, installs exactly one entry for `w` when the
deadline is still pending, wakes `w` at once when it is already due, and (when
`w` was present) evicts nobody else. -/
theorem schedule_wake_spec {cap now dl w : Nat} {s : InnerQueue}
    (hs : s.queue.Pairwise leT) (hcnt : countW w s.queue ≤ 1)
    (hlen : s.queue.length ≤ cap) (hcap : 0 < cap) :
    ∃ s' ws, InnerQueue.schedule_wake cap now dl w s = some (s', ws) ∧
      s'.queue.Pairwise leT ∧ s'.alarm.isSome ∧ armedMinInv s' ∧
      s'.queue.length ≤ cap ∧
      (∀ t ∈ s'.queue, now < t.deadline) ∧
      (now < dl → ({ deadline := dl, waker := w } : Timer) ∈ s'.queue ∧
        countW w s'.queue = 1 ∧
        ∀ t ∈ s'.queue, t.waker = w → t = { deadline := dl, waker := w }) ∧
      (dl ≤ now → w ∈ ws ∧ ∀ t ∈ s'.queue, t.waker ≠ w) ∧
      (countW w s.queue = 1 →
        ∀ t ∈ s.queue, t.waker ≠ w → now < t.deadline → t ∈ s'.queue) := by
  cases hf : findRemove w s.queue with
  | some r =>
    obtain ⟨t0, rest⟩ := r
    obtain ⟨hw0, hperm, hsub⟩ := findRemove_spec hf
    have hins : ({ t0 with deadline := dl } : Timer) = { deadline := dl, waker := w } := by
      cases t0
      simpa using hw0
    have hrs : rest.Pairwise leT := hs.sublist hsub
    have hcq : countW w s.queue = countW w rest + 1 := by
      rw [countW_eq_of_perm hperm, countW_cons, hw0]
      simp
    have hr0 : countW w rest = 0 := by omega
    have hql : s.queue.length = rest.length + 1 := by
      simpa using hperm.length_eq
    have hblen : rest.length + 1 ≤ cap := by omega
    have heq0 := @schedule_wake_find cap now dl w _ _ _ hf
    rw [hins] at heq0
    have heq : InnerQueue.schedule_wake cap now dl w s =
        (InnerQueue.dispatch now
          { s.initAlarm with queue := insertSorted { deadline := dl, waker := w } rest }).map
          fun r2 => (r2.1, ([] : List Nat) ++ r2.2) := by
      rw [heq0]
      cases InnerQueue.dispatch now
        { s.initAlarm with queue := insertSorted { deadline := dl, waker := w } rest } <;> simp
    obtain ⟨s', ws', hc1, hc2, hc3, hc4, hc5, hc6, hc7, hc8, hc9, hc10, hc11⟩ :=
      schedule_wake_core hrs hr0 hblen heq
    refine ⟨s', [] ++ ws', hc1, hc4, hc5, hc6, hc7, hc8, hc9, hc10, ?_⟩
    intro _ t ht hwk hfut
    have htr : t ∈ rest := by
      rcases List.mem_cons.mp (hperm.mem_iff.mp ht) with rfl | h
      · exact absurd hw0 hwk
      · exact h
    exact hc11 t htr hwk hfut
  | none =>
    have hfw := findRemove_none hf
    have hq0 : countW w s.queue = 0 := countW_eq_zero.mpr hfw
    by_cases hc : s.queue.length < cap
    · have hp := @pushEvict_lt cap { deadline := dl, waker := w } _ hc
      have heq0 := @schedule_wake_push cap now dl w _ _ _ hf hp
      obtain ⟨s', ws', hc1, hc2, hc3, hc4, hc5, hc6, hc7, hc8, hc9, hc10, hc11⟩ :=
        schedule_wake_core hs hq0 (by omega) heq0
      refine ⟨s', [] ++ ws', hc1, hc4, hc5, hc6, hc7, hc8, hc9, hc10, ?_⟩
      intro hone
      omega
    · have hcEq : s.queue.length = cap := Nat.le_antisymm hlen (Nat.le_of_not_lt hc)
      cases hqe : s.queue with
      | nil =>
        rw [hqe] at hcEq
        simp at hcEq
        omega
      | cons hd0 tl =>
        have hfull : (hd0 :: tl).length = cap := by
          rw [← hqe]
          exact hcEq
        have hp0 : pushEvict cap { deadline := dl, waker := w } s.queue =
            some (insertSorted { deadline := dl, waker := w } tl, [hd0.waker]) := by
          rw [hqe]
          exact pushEvict_full hfull
        have heq0 := @schedule_wake_push cap now dl w _ _ _ hf hp0
        have htl_sorted : tl.Pairwise leT := by
          have h2 := hs
          rw [hqe, List.pairwise_cons] at h2
          exact h2.2
        have htl0 : countW w tl = 0 := by
          apply countW_eq_zero.mpr
          intro t ht
          exact hfw t (by rw [hqe]; exact List.mem_cons_of_mem _ ht)
        have hblen : tl.length + 1 ≤ cap := by
          have h3 : (hd0 :: tl).length = cap := hfull
          simp at h3
          omega
        obtain ⟨s', ws', hc1, hc2, hc3, hc4, hc5, hc6, hc7, hc8, hc9, hc10, hc11⟩ :=
          schedule_wake_core htl_sorted htl0 hblen heq0
        refine ⟨s', [hd0.waker] ++ ws', hc1, hc4, hc5, hc6, hc7, hc8, hc9, hc10, ?_⟩
        intro hone
        exfalso
        rw [hqe] at hq0
        omega

theorem schedule_wake_armed_min {cap now dl w : Nat} {s s' : InnerQueue}
    {ws : List Nat} (hs : s.queue.Pairwise leT)
    (h : InnerQueue.schedule_wake cap now dl w s = some (s', ws)) : armedMinInv s' := by
  cases hf : findRemove w s.queue with
  | some r =>
    obtain ⟨t0, rest⟩ := r
    obtain ⟨hw0, hperm, hsub⟩ := findRemove_spec hf
    rw [schedule_wake_find hf] at h
    exact dispatch_inv
      (s := { s.initAlarm with queue := insertSorted { t0 with deadline := dl } rest })
      (sorted_insertSorted _ (hs.sublist hsub)) (initAlarm_isSome s) h
  | none =>
    cases hp : pushEvict cap { deadline := dl, waker := w } s.queue with
    | none =>
      rw [schedule_wake_push_none hf hp] at h
      cases h
    | some r =>
      obtain ⟨q', ws0⟩ := r
      obtain ⟨k, hk1, -⟩ := pushEvict_spec hp
      rw [schedule_wake_push hf hp] at h
      cases hd : InnerQueue.dispatch now { s.initAlarm with queue := q' } with
      | none =>
        rw [hd] at h
        cases h
      | some r2 =>
        obtain ⟨q2s, ws2⟩ := r2
        rw [hd] at h
        have hq's : q'.Pairwise leT := by
          rw [hk1]
          exact sorted_insertSorted _ (hs.sublist (List.drop_sublist k s.queue))
        have hinv : armedMinInv q2s :=
          dispatch_inv (s := { s.initAlarm with queue := q' }) hq's (initAlarm_isSome s) hd
        simp only [Option.map_some', Option.some.injEq, Prod.mk.injEq] at h
        obtain ⟨rfl, -⟩ := h
        exact hinv

/-- C1: Armed-minimum invariant of the wake queue: after every completed
`schedule_wake` (eviction included), `dispatch`, or `handle_alarm`, the recorded
armed deadline `alarm_at` equals the minimum deadline among the entries in the
queue, and when the queue is empty it is the sentinel `Instant::MAX` with the
hardware alarm disarmed (scheduled to the sentinel "never"). -/
theorem wake_queue_armed_min (cap now dl w : Nat) (s : InnerQueue)
    (hs : s.queue.Pairwise leT) (ha : s.alarm.isSome) :
    (∀ s' ws, InnerQueue.schedule_wake cap now dl w s = some (s', ws) → armedMinInv s') ∧
    (∀ s' ws, InnerQueue.dispatch now s = some (s', ws) → armedMinInv s') ∧
    (∀ s' ws, InnerQueue.handle_alarm now s = some (s', ws) → armedMinInv s') :=
  ⟨fun _ _ h => schedule_wake_armed_min hs h,
    fun _ _ h => dispatch_inv hs ha h,
    fun _ _ h => dispatch_inv (s := { s with alarm_at := u64MAX }) hs ha h⟩

/-- C2: Overflow policy: with the queue at capacity `cap` holding entries for
wakers all distinct from `w`, `schedule_wake` for `w` never rejects: the
eviction loop pops exactly one previously-pending entry — the head, which holds
the then-smallest deadline — wakes it first during the call, inserts the new
entry (restoring length `cap`), and the final queue length stays at most
`cap`. -/
theorem overflow_policy (cap now dl w : Nat) (s : InnerQueue) (hd : Timer)
    (tl : List Timer) (hq : s.queue = hd :: tl) (hlen : s.queue.length = cap)
    (hs : s.queue.Pairwise leT) (hw : ∀ t ∈ s.queue, t.waker ≠ w) :
    pushEvict cap { deadline := dl, waker := w } s.queue =
      some (insertSorted { deadline := dl, waker := w } tl, [hd.waker]) ∧
    (∀ t ∈ s.queue, hd.deadline ≤ t.deadline) ∧
    ({ deadline := dl, waker := w } : Timer) ∈
      insertSorted { deadline := dl, waker := w } tl ∧
    (insertSorted { deadline := dl, waker := w } tl).length = cap ∧
    ∃ s' ws, InnerQueue.schedule_wake cap now dl w s = some (s', ws) ∧
      ws.head? = some hd.waker ∧ s'.queue.length ≤ cap := by
  have hfull : (hd :: tl).length = cap := by
    rw [← hq]
    exact hlen
  have hp0 : pushEvict cap { deadline := dl, waker := w } s.queue =
      some (insertSorted { deadline := dl, waker := w } tl, [hd.waker]) := by
    rw [hq]
    exact pushEvict_full hfull
  have hf : findRemove w s.queue = none := findRemove_eq_none hw
  have heq0 := @schedule_wake_push cap now dl w _ _ _ hf hp0
  have htl_sorted : tl.Pairwise leT := by
    have h2 := hs
    rw [hq, List.pairwise_cons] at h2
    exact h2.2
  have htl0 : countW w tl = 0 :=
    countW_eq_zero.mpr fun t ht => hw t (by rw [hq]; exact List.mem_cons_of_mem _ ht)
  have h3 : tl.length + 1 = cap := by simpa using hfull
  obtain ⟨s', ws', hc1, hc2, hc3, hc4, hc5, hc6, hc7, hc8, hc9, hc10, hc11⟩ :=
    schedule_wake_core htl_sorted htl0 (Nat.le_of_eq h3) heq0
  refine ⟨hp0, ?_, mem_insertSorted.mpr (Or.inl rfl), ?_,
    s', [hd.waker] ++ ws', hc1, rfl, hc7⟩
  · intro t ht
    rw [hq] at ht
    rcases List.mem_cons.mp ht with rfl | h
    · exact Nat.le_refl _
    · have h2 := hs
      rw [hq, List.pairwise_cons] at h2
      exact h2.1 t h
  · rw [length_insertSorted]
    exact h3

/-- C3: Sweep completeness: for every sorted queue state with a bound alarm,
`dispatch` (reading time `now` once at its start) succeeds, no remaining entry
has deadline ≤ `now`, and every entry with deadline ≤ `now` was removed and had
its waker woken. -/
theorem sweep_completeness (now : Nat) (s : InnerQueue)
    (hs : s.queue.Pairwise leT) (ha : s.alarm.isSome) :
    ∃ s' ws, InnerQueue.dispatch now s = some (s', ws) ∧
      (∀ t ∈ s'.queue, ¬ t.deadline ≤ now) ∧
      (∀ t ∈ s.queue, t.deadline ≤ now → t.waker ∈ ws ∧ t ∉ s'.queue) := by
  obtain ⟨s', h1, h2, h3, h4, h5, h6⟩ := @dispatch_spec now _ hs ha
  refine ⟨s', (sweep now s.queue).2, h1, ?_, ?_⟩
  · intro t ht
    exact Nat.not_le_of_lt (h6 t ht)
  · intro t ht hle
    exact ⟨sweep_snd_mem hs ht hle,
      fun hmem => absurd hle (Nat.not_le_of_lt (h6 t hmem))⟩

/-- C4: Idempotent reschedule: scheduling the same waker identity twice with
pending deadlines `d1` then `d2` leaves exactly one entry for that waker, with
deadline `d2`, in a queue still sorted, and the second call removes no other
waker's pending entry. -/
theorem idempotent_reschedule (cap now1 now2 d1 d2 w : Nat) (s : InnerQueue)
    (hs : s.queue.Pairwise leT) (hcnt : countW w s.queue ≤ 1)
    (hlen : s.queue.length ≤ cap) (hcap : 0 < cap)
    (h1 : now1 < d1) (h2 : now2 < d2) :
    ∃ s1 ws1 s2 ws2,
      InnerQueue.schedule_wake cap now1 d1 w s = some (s1, ws1) ∧
      InnerQueue.schedule_wake cap now2 d2 w s1 = some (s2, ws2) ∧
      countW w s2.queue = 1 ∧
      (∀ t ∈ s2.queue, t.waker = w → t.deadline = d2) ∧
      s2.queue.Pairwise leT ∧
      (∀ t ∈ s1.queue, t.waker ≠ w → now2 < t.deadline → t ∈ s2.queue) := by
  obtain ⟨s1, ws1, ha1, hb1, _, _, hl1, _, hf1, _, _⟩ :=
    @schedule_wake_spec cap now1 d1 w _ hs hcnt hlen hcap
  obtain ⟨hmem1, hcnt1, huni1⟩ := hf1 h1
  obtain ⟨s2, ws2, ha2, hb2, _, _, _, _, hf2, _, hfr2⟩ :=
    @schedule_wake_spec cap now2 d2 w _ hb1 (by omega) hl1 hcap
  obtain ⟨hmem2, hcnt2, huni2⟩ := hf2 h2
  refine ⟨s1, ws1, s2, ws2, ha1, ha2, hcnt2, ?_, hb2, hfr2 hcnt1⟩
  intro t ht hwk
  rw [huni2 t ht hwk]

/-- C5: Past-deadline schedule is honored immediately: when the requested
deadline is ≤ the time the final sweep of `schedule_wake` observes, the call
wakes `w` before returning and leaves no entry for `w` in the queue. -/
theorem past_deadline_immediate (cap now dl w : Nat) (s : InnerQueue)
    (hs : s.queue.Pairwise leT) (hcnt : countW w s.queue ≤ 1)
    (hlen : s.queue.length ≤ cap) (hcap : 0 < cap) (hpast : dl ≤ now) :
    ∃ s' ws, InnerQueue.schedule_wake cap now dl w s = some (s', ws) ∧
      w ∈ ws ∧ ∀ t ∈ s'.queue, t.waker ≠ w := by
  obtain ⟨s', ws, ha1, _, _, _, _, _, _, hp, _⟩ :=
    @schedule_wake_spec cap now dl w _ hs hcnt hlen hcap
  obtain ⟨hw1, hw2⟩ := hp hpast
  exact ⟨s', ws, ha1, hw1, hw2⟩

/-- C9: During the overflow eviction loop, the entry popped and woken is the
previously-inserted head, never the newly requested entry — even when the new
deadline `dl` is smaller than every queued deadline — because the pop happens on
the old queue before the push: the new entry ends up in the queue. -/
theorem eviction_never_new (cap dl w : Nat) (hd : Timer) (tl : List Timer)
    (hlen : (hd :: tl).length = cap) (hw : ∀ t ∈ hd :: tl, t.waker ≠ w) :
    pushEvict cap { deadline := dl, waker := w } (hd :: tl) =
      some (insertSorted { deadline := dl, waker := w } tl, [hd.waker]) ∧
    hd.waker ≠ w ∧
    ({ deadline := dl, waker := w } : Timer) ∈
      insertSorted { deadline := dl, waker := w } tl :=
  ⟨pushEvict_full hlen, hw hd (List.mem_cons_self hd tl),
    mem_insertSorted.mpr (Or.inl rfl)⟩

/-! ## Alarm slot pool lemmas and claims -/

theorem modifyAt_append (f : Alarm → Alarm) (l : List Alarm) (a : Alarm) :
    modifyAt l.length f (l ++ [a]) = l ++ [f a] := by
  induction l with
  | nil => rfl
  | cons b l' ih => simp [modifyAt, ih]

theorem allocate_lt {maxAlarms : Nat} {d : EspDriver} (h : d.alarms.length < maxAlarms) :
    EspDriver.allocate_alarm maxAlarms d =
      some (d.alarms.length, ⟨d.alarms ++ [⟨some ⟨none⟩, none⟩]⟩) := by
  simp only [EspDriver.allocate_alarm, if_pos h, modifyAt_append]

theorem allocate_ge {maxAlarms : Nat} {d : EspDriver}
    (h : ¬ d.alarms.length < maxAlarms) :
    EspDriver.allocate_alarm maxAlarms d = none := by
  simp [EspDriver.allocate_alarm, h]

theorem allocCalls_spec (maxAlarms : Nat) :
    ∀ (n : Nat) (d : EspDriver), d.alarms.length + n ≤ maxAlarms →
      (allocCalls maxAlarms n d).2 = (List.range' d.alarms.length n).map some ∧
      (allocCalls maxAlarms n d).1.alarms.length = d.alarms.length + n := by
  intro n
  induction n with
  | zero => intro d _; exact ⟨rfl, rfl⟩
  | succ n ih =>
    intro d h
    have hlt : d.alarms.length < maxAlarms := by omega
    have hstep := allocate_lt hlt
    have hlen' : (EspDriver.mk (d.alarms ++ [⟨some ⟨none⟩, none⟩])).alarms.length =
        d.alarms.length + 1 := by simp
    obtain ⟨ih1, ih2⟩ := ih ⟨d.alarms ++ [⟨some ⟨none⟩, none⟩]⟩ (by simp; omega)
    rw [hlen'] at ih1 ih2
    constructor
    · simp only [allocCalls, hstep]
      rw [List.range'_succ _ _ 1, ih1]
      rfl
    · simp only [allocCalls, hstep]
      rw [ih2]
      omega

/-- C6: Pool capacity: starting from the empty driver with `MAX_ALARMS = N`, the
first `N` calls to `allocate_alarm` all succeed and return the distinct ids
`0, 1, ..., N-1` in issuance order, leaving `N` slots; the next call returns the
exhaustion signal `None` (without touching the pool: the model's `none` branch
returns no new state, mirroring the source's early `return None` before any
mutation). -/
theorem pool_capacity (N : Nat) :
    (allocCalls N N EspDriver.new).2 = (List.range N).map some ∧
    (allocCalls N N EspDriver.new).1.alarms.length = N ∧
    EspDriver.allocate_alarm N (allocCalls N N EspDriver.new).1 = none := by
  obtain ⟨h1, h2⟩ := allocCalls_spec N N EspDriver.new (by simp [EspDriver.new])
  have h2' : (allocCalls N N EspDriver.new).1.alarms.length = N := by
    simpa [EspDriver.new] using h2
  refine ⟨?_, h2', allocate_ge (by omega)⟩
  rw [h1, List.range_eq_range' N]
  rfl

/-- C7 counterexample: the claim says a failing `set_alarm` (deadline ≤ now)
"leaves the slot disarmed", but on a slot still armed from an earlier successful
call (here one-shot armed for 5 µs) the failing call leaves it armed: the
post-state equals the pre-state, whose slot-0 timer is `some ⟨some 5⟩`, not
disarmed. -/
theorem arm_boundary_counterexample :
    EspDriver.set_alarm 10 0 3 ⟨[⟨some ⟨some 5⟩, none⟩]⟩ =
      some (false, ⟨[⟨some ⟨some 5⟩, none⟩]⟩) ∧
    (⟨[⟨some ⟨some 5⟩, none⟩]⟩ : EspDriver).alarms[0]?.bind Alarm.timer =
      some ⟨some 5⟩ ∧
    (⟨some 5⟩ : TimerState).armed ≠ none := by
  decide

/-- C7 (amended): `set_alarm(id, timestamp)` with `timestamp ≤ now` returns
failure and arms nothing — the driver state (hence the slot's previous armed
state) is unchanged; with `timestamp > now` it returns success and the slot's
one-shot timer becomes armed for exactly `timestamp - now` microseconds. -/
theorem arm_boundary (now id timestamp : Nat) (d : EspDriver) (a : Alarm)
    (tst : TimerState) (hid : d.alarms[id]? = some a) (ht : a.timer = some tst) :
    (timestamp ≤ now → EspDriver.set_alarm now id timestamp d = some (false, d)) ∧
    (now < timestamp →
      EspDriver.set_alarm now id timestamp d =
        some (true,
          ⟨modifyAt id (fun al => { al with timer := some ⟨some (timestamp - now)⟩ })
            d.alarms⟩)) := by
  constructor
  · intro hle
    simp [EspDriver.set_alarm, hid, Nat.not_lt.mpr hle]
  · intro hlt
    simp [EspDriver.set_alarm, hid, ht, hlt, EspTimer.after, EspTimer.cancel,
      esp_timer_stop, esp_timer_start_once]

/-- C10: Failing `set_alarm` leaves the slot state entirely unchanged: when
`timestamp ≤ now`, the call returns `false` with the driver state identical to
the pre-state — in particular a timer armed by an earlier successful call stays
armed with its previous expiry. -/
theorem set_alarm_frame (now id timestamp : Nat) (d : EspDriver) (a : Alarm)
    (hid : d.alarms[id]? = some a) (hpast : timestamp ≤ now) :
    EspDriver.set_alarm now id timestamp d = some (false, d) := by
  simp [EspDriver.set_alarm, hid, Nat.not_lt.mpr hpast]

/-- C8 counterexample: with the timer armed (running), `EspTimer::cancel`
returns `false`, not `true` as the claim states. -/
theorem cancel_counterexample :
    (EspTimer.cancel ⟨some 7⟩).1 = false ∧
    (⟨some 7⟩ : TimerState).armed.isSome = true := by
  decide

/-- C8 (amended): `EspTimer::cancel` stops the timer and returns `true` exactly
when the timer was NOT previously active (`esp_timer_stop` reported an error),
i.e. the negation of previously-active. -/
theorem cancel_returns_not_active (st : TimerState) :
    (EspTimer.cancel st).1 = !st.armed.isSome ∧
    (EspTimer.cancel st).2.armed = none := by
  cases h : st.armed <;>
    simp [EspTimer.cancel, esp_timer_stop, h, ESP_OK, ESP_ERR_INVALID_STATE]

/-! ## Concrete witnesses -/

/-- Witness for C1 at a concrete state: one entry at deadline 5, alarm armed at
5, scheduling waker 1 at deadline 7 with the clock at 0. -/
theorem wake_queue_armed_min_witness :
    (([⟨5, 3⟩] : List Timer).Pairwise leT ∧
      (some (⟨some 5⟩ : HwAlarm)).isSome = true) ∧
    ((∀ s' ws, InnerQueue.schedule_wake 2 0 7 1 ⟨[⟨5, 3⟩], some ⟨some 5⟩, 5⟩ =
        some (s', ws) → armedMinInv s') ∧
      (∀ s' ws, InnerQueue.dispatch 0 ⟨[⟨5, 3⟩], some ⟨some 5⟩, 5⟩ =
        some (s', ws) → armedMinInv s') ∧
      (∀ s' ws, InnerQueue.handle_alarm 0 ⟨[⟨5, 3⟩], some ⟨some 5⟩, 5⟩ =
        some (s', ws) → armedMinInv s')) :=
  ⟨⟨by decide, by decide⟩,
    wake_queue_armed_min 2 0 7 1 ⟨[⟨5, 3⟩], some ⟨some 5⟩, 5⟩ (by decide) (by decide)⟩

/-- Witness for C2: the spec's own scenario: capacity 2 holding waker 1 at 100
and waker 2 at 200, scheduling waker 3 at 300 with the clock at 0 evicts and
wakes waker 1 (deadline 100, the minimum). -/
theorem overflow_policy_witness :
    ((⟨[⟨100, 1⟩, ⟨200, 2⟩], some ⟨some 100⟩, 100⟩ : InnerQueue).queue =
        ⟨100, 1⟩ :: [⟨200, 2⟩] ∧
      ([⟨100, 1⟩, ⟨200, 2⟩] : List Timer).length = 2 ∧
      ([⟨100, 1⟩, ⟨200, 2⟩] : List Timer).Pairwise leT ∧
      (∀ t ∈ ([⟨100, 1⟩, ⟨200, 2⟩] : List Timer), t.waker ≠ 3)) ∧
    (pushEvict 2 { deadline := 300, waker := 3 } [⟨100, 1⟩, ⟨200, 2⟩] =
        some (insertSorted { deadline := 300, waker := 3 } [⟨200, 2⟩], [1]) ∧
      (∀ t ∈ ([⟨100, 1⟩, ⟨200, 2⟩] : List Timer), 100 ≤ t.deadline) ∧
      ({ deadline := 300, waker := 3 } : Timer) ∈
        insertSorted { deadline := 300, waker := 3 } [⟨200, 2⟩] ∧
      (insertSorted { deadline := 300, waker := 3 } [⟨200, 2⟩]).length = 2 ∧
      ∃ s' ws, InnerQueue.schedule_wake 2 0 300 3
          ⟨[⟨100, 1⟩, ⟨200, 2⟩], some ⟨some 100⟩, 100⟩ = some (s', ws) ∧
        ws.head? = some 1 ∧ s'.queue.length ≤ 2) :=
  ⟨⟨by decide, by decide, by decide, by decide⟩,
    overflow_policy 2 0 300 3 ⟨[⟨100, 1⟩, ⟨200, 2⟩], some ⟨some 100⟩, 100⟩ ⟨100, 1⟩
      [⟨200, 2⟩] (by decide) (by decide) (by decide) (by decide)⟩

/-- Witness for C3: dispatch at time 5 on entries due at 3 and 10. -/
theorem sweep_completeness_witness :
    (([⟨3, 1⟩, ⟨10, 2⟩] : List Timer).Pairwise leT ∧
      (some (⟨some 3⟩ : HwAlarm)).isSome = true) ∧
    (∃ s' ws, InnerQueue.dispatch 5 ⟨[⟨3, 1⟩, ⟨10, 2⟩], some ⟨some 3⟩, 3⟩ =
        some (s', ws) ∧
      (∀ t ∈ s'.queue, ¬ t.deadline ≤ 5) ∧
      (∀ t ∈ ([⟨3, 1⟩, ⟨10, 2⟩] : List Timer), t.deadline ≤ 5 →
        t.waker ∈ ws ∧ t ∉ s'.queue)) :=
  ⟨⟨by decide, by decide⟩,
    sweep_completeness 5 ⟨[⟨3, 1⟩, ⟨10, 2⟩], some ⟨some 3⟩, 3⟩ (by decide) (by decide)⟩

/-- Witness for C4: schedule waker 1 at 100 then reschedule it at 50, from the
fresh queue with capacity 2 and the clock at 0. -/
theorem idempotent_reschedule_witness :
    (InnerQueue.new.queue.Pairwise leT ∧ countW 1 InnerQueue.new.queue ≤ 1 ∧
      InnerQueue.new.queue.length ≤ 2 ∧ 0 < 2 ∧ 0 < 100 ∧ 0 < 50) ∧
    (∃ s1 ws1 s2 ws2,
      InnerQueue.schedule_wake 2 0 100 1 InnerQueue.new = some (s1, ws1) ∧
      InnerQueue.schedule_wake 2 0 50 1 s1 = some (s2, ws2) ∧
      countW 1 s2.queue = 1 ∧
      (∀ t ∈ s2.queue, t.waker = 1 → t.deadline = 50) ∧
      s2.queue.Pairwise leT ∧
      (∀ t ∈ s1.queue, t.waker ≠ 1 → 0 < t.deadline → t ∈ s2.queue)) :=
  ⟨⟨by decide, by decide, by decide, by decide, by decide, by decide⟩,
    idempotent_reschedule 2 0 0 100 50 1 InnerQueue.new (by decide) (by decide)
      (by decide) (by decide) (by decide) (by decide)⟩

/-- Witness for C5: with the clock at 10, scheduling waker 4 at the
already-passed deadline 5 wakes it during the call. -/
theorem past_deadline_immediate_witness :
    (([⟨20, 1⟩] : List Timer).Pairwise leT ∧ countW 4 [⟨20, 1⟩] ≤ 1 ∧
      ([⟨20, 1⟩] : List Timer).length ≤ 2 ∧ 0 < 2 ∧ 5 ≤ 10) ∧
    (∃ s' ws, InnerQueue.schedule_wake 2 10 5 4 ⟨[⟨20, 1⟩], some ⟨some 20⟩, 20⟩ =
        some (s', ws) ∧ 4 ∈ ws ∧ ∀ t ∈ s'.queue, t.waker ≠ 4) :=
  ⟨⟨by decide, by decide, by decide, by decide, by decide⟩,
    past_deadline_immediate 2 10 5 4 ⟨[⟨20, 1⟩], some ⟨some 20⟩, 20⟩ (by decide)
      (by decide) (by decide) (by decide) (by decide)⟩

/-- Witness for C7 (amended) at a single-slot driver with an idle bound timer,
clock at 3, deadline 10. -/
theorem arm_boundary_witness :
    ((⟨[⟨some ⟨none⟩, none⟩]⟩ : EspDriver).alarms[0]? = some ⟨some ⟨none⟩, none⟩ ∧
      (⟨some ⟨none⟩, none⟩ : Alarm).timer = some ⟨none⟩) ∧
    ((10 ≤ 3 → EspDriver.set_alarm 3 0 10 ⟨[⟨some ⟨none⟩, none⟩]⟩ =
        some (false, ⟨[⟨some ⟨none⟩, none⟩]⟩)) ∧
      (3 < 10 → EspDriver.set_alarm 3 0 10 ⟨[⟨some ⟨none⟩, none⟩]⟩ =
        some (true, ⟨modifyAt 0 (fun al => { al with timer := some ⟨some (10 - 3)⟩ })
          [⟨some ⟨none⟩, none⟩]⟩))) :=
  ⟨⟨by decide, by decide⟩,
    arm_boundary 3 0 10 ⟨[⟨some ⟨none⟩, none⟩]⟩ ⟨some ⟨none⟩, none⟩ ⟨none⟩
      (by decide) (by decide)⟩

/-- Witness for C9: a full capacity-2 queue of wakers 1 and 2; requesting waker
3 at deadline 50 — earlier than both queued deadlines — still evicts the old
head (waker 1), never the new entry. -/
theorem eviction_never_new_witness :
    ((⟨100, 1⟩ :: [⟨200, 2⟩] : List Timer).length = 2 ∧
      (∀ t ∈ (⟨100, 1⟩ :: [⟨200, 2⟩] : List Timer), t.waker ≠ 3)) ∧
    (pushEvict 2 { deadline := 50, waker := 3 } (⟨100, 1⟩ :: [⟨200, 2⟩]) =
        some (insertSorted { deadline := 50, waker := 3 } [⟨200, 2⟩], [1]) ∧
      (1 : Nat) ≠ 3 ∧
      ({ deadline := 50, waker := 3 } : Timer) ∈
        insertSorted { deadline := 50, waker := 3 } [⟨200, 2⟩]) :=
  ⟨⟨by decide, by decide⟩,
    eviction_never_new 2 50 3 ⟨100, 1⟩ [⟨200, 2⟩] (by decide) (by decide)⟩

/-- Witness for C10: a slot armed for 5 µs; a failing call (deadline 3 with the
clock at 10) returns false and the unchanged driver state. -/
theorem set_alarm_frame_witness :
    ((⟨[⟨some ⟨some 5⟩, none⟩]⟩ : EspDriver).alarms[0]? =
        some ⟨some ⟨some 5⟩, none⟩ ∧ 3 ≤ 10) ∧
    EspDriver.set_alarm 10 0 3 ⟨[⟨some ⟨some 5⟩, none⟩]⟩ =
      some (false, ⟨[⟨some ⟨some 5⟩, none⟩]⟩) :=
  ⟨⟨by decide, by decide⟩,
    set_alarm_frame 10 0 3 ⟨[⟨some ⟨some 5⟩, none⟩]⟩ ⟨some ⟨some 5⟩, none⟩
      (by decide) (by decide)⟩

end EspIdfSvcTimer
